import Mathlib

/-!
# Verification of `ekclib`'s `scheduler.h`

This file gives a shallow embedding, in Lean 4, of the thread-pool work
dispatcher in `src/scheduler.h` of the `ekandrot/ekclib` repository, and proves
(or refutes) the specification claims about it.

## Modelling

The C++ scheduler's shared mutable state consists of four data members:

* `int _maxWork`   — exclusive upper bound of claimable work indices;
* `int _nextWork`  — the next unclaimed index;
* `bool _done`     — streaming-mode "no more work will be added" flag;
* `int _threadCount` — number of threads `run()` creates.

We model this state as the structure `Sched`.  C++ `int`s become `Int` (no
overflow occurs in the ranges the claims speak about).  The member
`_threadCount` is modelled as `Option Int` because the C++ constructor assigns
it only on one branch (`threadCount < 1`); on the other branch the member is
left *uninitialized*, which we render as `none`.  The `worker *_w` pointer and
the `std::vector<std::thread>` handles carry no data relevant to the claims
(the indices a worker hands to `do_work` are exactly the non-sentinel values
returned by the claim functions, which is how the spec itself phrases the
exactly-once property), so they are not part of the state.

Every member function that touches the shared state is translated directly:

* `get_work`         (scheduler.h lines 93–105);
* `get_work_wait`    (scheduler.h lines 131–144) — the `_cv.wait(lk, pred)`
  becomes a guard: when the predicate `_done || (_nextWork < _maxWork)` is
  false the call does not return (the thread stays blocked), modelled by
  `none`; when it is true the function performs exactly the body that follows
  the wait;
* `add_work`         (lines 44–47), `done_adding_work` (lines 49–52);
* `run_all_threads`  (lines 80–86), which resets `_nextWork` to 0;
* the constructor (lines 32–38).

Because both claim functions execute under the single `_workMutex`, a
multi-threaded run is, by mutual exclusion, a serialization: an interleaving
of atomic `get_work` / `get_work_wait` / `add_work` / `done_adding_work`
steps.  The type `Op` names these four shared-state operations and `execTrace`
runs a serialized list of them, collecting the values the claim operations
return.  Facts proved for every such serialization are facts about every
possible lock-order interleaving of the worker threads and producers, which is
how thread-count independence is captured.

The lock and condition-variable *discipline* of each member function (which
ones acquire `_workMutex`, which ones notify) is recorded by the functions
`acquires_workMutex` and `notifies`, read off the source text.
-/

/-- The shared mutable state of one `scheduler` object (`src/scheduler.h`,
lines 67–76 and 128–129).  `_threadCount = none` means the C++ member was
never assigned, i.e. holds an indeterminate value. -/
structure Sched where
  _maxWork : Int
  _nextWork : Int
  _done : Bool
  _threadCount : Option Int
deriving Repr, DecidableEq

namespace scheduler

/-- The constructor `scheduler(worker *w, int maxWork, int threadCount=0)`
(scheduler.h lines 32–38).  The member-initializer list sets
`_maxWork = maxWork`, `_nextWork = 0`; the body assigns
`_threadCount = std::thread::hardware_concurrency()` only when
`threadCount < 1`, and otherwise never assigns `_threadCount` at all (there
is no `else` branch and no initializer for it), so in that case the member
stays uninitialized (`none`).  Finally the body sets `_done = false`.
`hardware_concurrency()` is platform-dependent, so it is a parameter `hw`;
the C++ standard allows it to return 0. -/
def construct (maxWork : Int) (threadCount : Int) (hw : Nat) : Sched :=
  { _maxWork := maxWork
    _nextWork := 0
    _done := false
    _threadCount := if threadCount < 1 then some (hw : Int) else none }

/-- Translation of `int get_work()` (scheduler.h lines 93–105): under `_workMutex`, read
`_nextWork`; if it is `< _maxWork`, return it and increment `_nextWork`;
otherwise return the sentinel `-1`. -/
def get_work (s : Sched) : Int × Sched :=
  let retVal := s._nextWork
  if retVal < s._maxWork then
    (retVal, { s with _nextWork := s._nextWork + 1 })
  else
    (-1, s)

/-- Translation of `int get_work_wait()` (scheduler.h lines 131–144): under `_workMutex`,
`_cv.wait(lk, [this]{ return _done || (_nextWork < _maxWork); })`, then the
same body as `get_work`.  A call that finds the wait predicate false blocks
(does not return), which the model renders as `none`; once the predicate
holds, the body runs and the call returns. -/
def get_work_wait (s : Sched) : Option (Int × Sched) :=
  if s._done = true ∨ s._nextWork < s._maxWork then
    some (let retVal := s._nextWork
          if retVal < s._maxWork then
            (retVal, { s with _nextWork := s._nextWork + 1 })
          else
            (-1, s))
  else
    none

/-- Translation of `void add_work()` (scheduler.h lines 44–47): `++_maxWork;
_cv.notify_one();`.  Note the source acquires no lock here; that fact is
recorded separately in `acquires_workMutex`. -/
def add_work (s : Sched) : Sched :=
  { s with _maxWork := s._maxWork + 1 }

/-- Translation of `void done_adding_work()` (scheduler.h lines 49–52): `_done = true;
_cv.notify_all();`. -/
def done_adding_work (s : Sched) : Sched :=
  { s with _done := true }

/-- Translation of `void run_all_threads(...)` (scheduler.h lines 80–86): clears the old
thread handles, resets `_nextWork = 0`, and spawns `_threadCount` threads.
Its effect on the shared counters is exactly the reset of `_nextWork`;
`_maxWork`, `_done` and `_threadCount` are untouched.  Both `run()` and
`run_wait()` delegate here. -/
def run_all_threads (s : Sched) : Sched :=
  { s with _nextWork := 0 }

/-- The outputs of `m` successive `get_work` calls (in `_workMutex`
acquisition order) starting from state `s`, together with the final state.
This is the serialized claim trace of a fixed-mode run (`code_block`,
scheduler.h lines 112–125): each worker loops calling `get_work` and hands
every non-sentinel return value to `worker::do_work`. -/
def getWorkTrace : Nat → Sched → List Int × Sched
  | 0, s => ([], s)
  | m + 1, s =>
    let p := get_work s
    let q := getWorkTrace m p.2
    (p.1 :: q.1, q.2)

/-- The four operations on the shared work-range state. -/
inductive Op where
  | getWork
  | getWorkWait
  | addWork
  | doneAddingWork
deriving Repr, DecidableEq

/-- Which member functions acquire `_workMutex`, read off the source text:
`get_work` holds a `std::lock_guard<std::mutex> lk(_workMutex)` (line 94),
`get_work_wait` holds a `std::unique_lock<std::mutex> lk(_workMutex)`
(line 132); `add_work` (lines 44–47) and `done_adding_work` (lines 49–52)
mutate `_maxWork` resp. `_done` with no lock at all. -/
def acquires_workMutex : Op → Bool
  | .getWork => true
  | .getWorkWait => true
  | .addWork => false
  | .doneAddingWork => false

/-- Which condition-variable notification each operation performs. -/
inductive NotifyKind where
  | noNotify
  | notifyOne
  | notifyAll
deriving Repr, DecidableEq

/-- Notifications performed: `add_work` calls `_cv.notify_one()` (line 46); `done_adding_work` calls
`_cv.notify_all()` (line 51); the claim functions notify nobody. -/
def notifies : Op → NotifyKind
  | .getWork => .noNotify
  | .getWorkWait => .noNotify
  | .addWork => .notifyOne
  | .doneAddingWork => .notifyAll

/-- One serialized step: the value returned to the calling thread (if the
operation returns one) and the successor state.  `none` means the operation
cannot complete at this point in lock order (a `get_work_wait` whose wait
predicate is false: the thread blocks). -/
def execOp : Op → Sched → Option (Option Int × Sched)
  | .getWork, s => some (some (get_work s).1, (get_work s).2)
  | .getWorkWait, s => (get_work_wait s).map fun p => (some p.1, p.2)
  | .addWork, s => some (none, add_work s)
  | .doneAddingWork, s => some (none, done_adding_work s)

/-- Run a serialized sequence of operations, collecting the returned values
in lock-acquisition order.  `none` if some operation in the sequence blocks
at its position. -/
def execTrace : List Op → Sched → Option (List Int × Sched)
  | [], s => some ([], s)
  | op :: ops, s =>
    match execOp op s with
    | none => none
    | some (v?, s') =>
      match execTrace ops s' with
      | none => none
      | some (vs, s'') => some (v?.toList ++ vs, s'')

/-- Producer-side operations (`add_work`, `done_adding_work`). -/
def isProducerOp : Op → Bool
  | .addWork => true
  | .doneAddingWork => true
  | _ => false

end scheduler


namespace scheduler

lemma get_work_lt {s : Sched} (h : s._nextWork < s._maxWork) :
    get_work s = (s._nextWork, { s with _nextWork := s._nextWork + 1 }) := by
  simp [get_work, h]

lemma get_work_ge {s : Sched} (h : ¬ s._nextWork < s._maxWork) :
    get_work s = (-1, s) := by
  simp [get_work, h]

/-- The serialized outputs of `m` successive `get_work` calls: starting with
`_nextWork = n` and `_maxWork = M` (with `n ≤ M`), the first `min m (M - n)`
calls return `n, n+1, …` in order, the remaining calls return the sentinel
`-1`, and the final `_nextWork` has advanced by exactly the number of
non-sentinel returns. -/
lemma getWorkTrace_spec (m : Nat) (s : Sched) (h : s._nextWork ≤ s._maxWork) :
    getWorkTrace m s =
      ((List.range (min m (s._maxWork - s._nextWork).toNat)).map
          (fun i : Nat => s._nextWork + (i : Int))
        ++ List.replicate (m - (s._maxWork - s._nextWork).toNat) (-1),
       { s with _nextWork := s._nextWork +
           ((min m (s._maxWork - s._nextWork).toNat : Nat) : Int) }) := by
  induction m generalizing s with
  | zero =>
      simp [getWorkTrace]
  | succ m ih =>
      by_cases hlt : s._nextWork < s._maxWork
      · have ih' := ih ({ s with _nextWork := s._nextWork + 1 }) (by simp; omega)
        simp only [getWorkTrace, get_work_lt hlt, ih']
        simp only [Prod.mk.injEq]
        have e1 : min (m + 1) (s._maxWork - s._nextWork).toNat =
            min m (s._maxWork - (s._nextWork + 1)).toNat + 1 := by omega
        have e2 : (m + 1) - (s._maxWork - s._nextWork).toNat =
            m - (s._maxWork - (s._nextWork + 1)).toNat := by omega
        have efun : ((fun i : Nat => s._nextWork + (i : Int)) ∘ Nat.succ) =
            (fun i : Nat => s._nextWork + 1 + (i : Int)) := by
          funext i
          simp only [Function.comp_apply]
          push_cast
          ring
        constructor
        · rw [e1, e2, List.range_succ_eq_map, List.map_cons, List.map_map, efun]
          simp
        · rw [e1]
          simp only [Sched.mk.injEq]
          refine ⟨trivial, ?_, trivial, trivial⟩
          push_cast
          ring
      · have hr0 : (s._maxWork - s._nextWork).toNat = 0 := by omega
        simp only [getWorkTrace, get_work_ge hlt, ih _ h, hr0]
        simp [List.replicate_succ]

end scheduler

namespace scheduler

lemma filter_replicate_sentinel (k : Nat) :
    (List.replicate k ((-1 : Int))).filter (fun v => v ≠ -1) = [] := by
  induction k with
  | zero => simp
  | succ k ih => simp [List.replicate_succ, ih]

lemma filter_map_range (N : Nat) :
    ((List.range N).map (fun i : Nat => (i : Int))).filter (fun v => v ≠ -1)
      = (List.range N).map (fun i : Nat => (i : Int)) := by
  rw [List.filter_eq_self]
  intro a ha
  simp only [List.mem_map, List.mem_range] at ha
  obtain ⟨i, _, rfl⟩ := ha
  simp

/-- A complete fixed-mode run: if `_maxWork = N`, then after the `run()` reset
the serialized trace of `N + k` `get_work` calls returns `0, …, N-1` followed
by `k` sentinels, and leaves `_maxWork` unchanged. -/
lemma run_trace (s : Sched) (N k : Nat) (hmax : s._maxWork = (N : Int)) :
    (getWorkTrace (N + k) (run_all_threads s)).1
        = (List.range N).map (fun i : Nat => (i : Int)) ++ List.replicate k (-1)
      ∧ ((getWorkTrace (N + k) (run_all_threads s)).2)._maxWork = (N : Int) := by
  have h0 : (run_all_threads s)._nextWork = 0 := rfl
  have hM : (run_all_threads s)._maxWork = (N : Int) := hmax
  have hle : (run_all_threads s)._nextWork ≤ (run_all_threads s)._maxWork := by
    rw [h0, hM]; positivity
  rw [getWorkTrace_spec (N + k) _ hle]
  rw [h0, hM]
  have e1 : (((N : Int)) - 0).toNat = N := by omega
  have e2 : min (N + k) N = N := by omega
  rw [e1, e2]
  constructor
  · simp
  · simp [run_all_threads]

end scheduler

namespace scheduler

/-- Claim C1.  For every fixed-mode run with `total_work = N ≥ 0` and no
concurrent extension, the indices handed to the Work Handler — i.e. the
non-sentinel values returned by successive `get_work` calls, in lock order —
are exactly `0, 1, …, N-1`, each claimed exactly once, with no duplicates and
no omissions, regardless of the thread count `k`.  A completed run of `k`
worker loops (`code_block`) performs exactly `N + k` serialized `get_work`
calls: `N` real claims handed to `do_work` plus the one sentinel on which each
of the `k` workers exits.  The trace is the same ordered list for every
lock-order interleaving, so the multiset of claimed indices is independent of
how the `N + k` calls are distributed over the `k` threads. -/
theorem c1_fixed_run_exactly_once (N k : Nat) (hk : 1 ≤ k) (tc : Int) (hw : Nat) :
    (getWorkTrace (N + k) (run_all_threads (construct (N : Int) tc hw))).1
        = (List.range N).map (fun i : Nat => (i : Int)) ++ List.replicate k (-1)
      ∧ ((getWorkTrace (N + k) (run_all_threads (construct (N : Int) tc hw))).1.filter
            (fun v => v ≠ -1))
        = (List.range N).map (fun i : Nat => (i : Int)) := by
  have h := run_trace (construct (N : Int) tc hw) N k rfl
  refine ⟨h.1, ?_⟩
  rw [h.1, List.filter_append, filter_replicate_sentinel, filter_map_range,
    List.append_nil]

/-- Witness for `c1_fixed_run_exactly_once`: the concrete run `N = 3`,
`k = 2` claims indices `0, 1, 2` exactly once, then two sentinels. -/
theorem c1_witness :
    1 ≤ 2
      ∧ ((getWorkTrace (3 + 2) (run_all_threads (construct ((3 : Nat) : Int) 0 8))).1
            = (List.range 3).map (fun i : Nat => (i : Int)) ++ List.replicate 2 (-1)
          ∧ ((getWorkTrace (3 + 2) (run_all_threads (construct ((3 : Nat) : Int) 0 8))).1.filter
                (fun v => v ≠ -1))
            = (List.range 3).map (fun i : Nat => (i : Int))) :=
  ⟨by decide, c1_fixed_run_exactly_once 3 2 (by decide) 0 8⟩

/-- Claim C9.  Each `run()` (via `run_all_threads`) resets `_nextWork` to 0
before spawning workers, so two sequential, non-overlapping `run()`/`join()`
cycles on the same scheduler with `total_work = N` each produce an
independent exactly-once traversal of `[0, N)`: both serialized claim traces
are `0, 1, …, N-1` followed by one sentinel per worker. -/
theorem c9_sequential_reuse (N k1 k2 : Nat) (hk1 : 1 ≤ k1) (hk2 : 1 ≤ k2)
    (tc : Int) (hw : Nat) :
    (getWorkTrace (N + k1) (run_all_threads (construct (N : Int) tc hw))).1
        = (List.range N).map (fun i : Nat => (i : Int)) ++ List.replicate k1 (-1)
      ∧ (getWorkTrace (N + k2) (run_all_threads
            ((getWorkTrace (N + k1) (run_all_threads (construct (N : Int) tc hw))).2))).1
        = (List.range N).map (fun i : Nat => (i : Int)) ++ List.replicate k2 (-1) := by
  have h1 := run_trace (construct (N : Int) tc hw) N k1 rfl
  have h2 := run_trace ((getWorkTrace (N + k1) (run_all_threads (construct (N : Int) tc hw))).2)
    N k2 h1.2
  exact ⟨h1.1, h2.1⟩

/-- Witness for `c9_sequential_reuse`: `N = 3`, two sequential runs with 2 and
1 worker threads respectively, both claiming `0, 1, 2` exactly once. -/
theorem c9_witness :
    1 ≤ 2 ∧ 1 ≤ 1
      ∧ ((getWorkTrace (3 + 2) (run_all_threads (construct ((3 : Nat) : Int) 0 8))).1
            = (List.range 3).map (fun i : Nat => (i : Int)) ++ List.replicate 2 (-1)
          ∧ (getWorkTrace (3 + 1) (run_all_threads
                ((getWorkTrace (3 + 2) (run_all_threads (construct ((3 : Nat) : Int) 0 8))).2))).1
            = (List.range 3).map (fun i : Nat => (i : Int)) ++ List.replicate 1 (-1)) :=
  ⟨by decide, by decide, c9_sequential_reuse 3 2 1 (by decide) (by decide) 0 8⟩

end scheduler

namespace scheduler

lemma get_work_cases (s : Sched) :
    (s._nextWork < s._maxWork
        ∧ get_work s = (s._nextWork, { s with _nextWork := s._nextWork + 1 }))
      ∨ (¬ s._nextWork < s._maxWork ∧ get_work s = (-1, s)) := by
  by_cases hlt : s._nextWork < s._maxWork
  · exact Or.inl ⟨hlt, get_work_lt hlt⟩
  · exact Or.inr ⟨hlt, get_work_ge hlt⟩

/-- When `get_work_wait` returns (the wait predicate held), its result is
exactly the result of `get_work` on the same state. -/
lemma get_work_wait_eq_some {s : Sched} {p : Int × Sched}
    (h : get_work_wait s = some p) :
    p = get_work s ∧ (s._done = true ∨ s._nextWork < s._maxWork) := by
  by_cases hp : s._done = true ∨ s._nextWork < s._maxWork
  · refine ⟨?_, hp⟩
    simp only [get_work_wait, if_pos hp, Option.some.injEq] at h
    rw [← h]
    rfl
  · simp [get_work_wait, hp] at h

lemma get_work_wait_of_pred {s : Sched}
    (hp : s._done = true ∨ s._nextWork < s._maxWork) :
    get_work_wait s = some (get_work s) := by
  simp only [get_work_wait, if_pos hp]
  rfl

lemma get_work_wait_of_not_pred {s : Sched}
    (hp : ¬ (s._done = true ∨ s._nextWork < s._maxWork)) :
    get_work_wait s = none := by
  simp [get_work_wait, hp]

/-- Claim C2 (the code refutes this; the spec states the evident intent).  The
constructor's only assignment to `_threadCount` is under `if (threadCount <
1)`; with an explicit thread count `k ≥ 1` the member is never initialized
(`none` in the model), so the effective thread count is an indeterminate
value, not `k`, and `start()` spawns an indeterminate number of threads.
With `threadCount = 0` the member does get the hardware-concurrency value. -/
theorem c2_explicit_thread_count_never_stored :
    (construct 10 4 8)._threadCount = none
      ∧ (construct 10 1 8)._threadCount = none
      ∧ (construct 10 0 8)._threadCount = some 8 := by decide

/-- Claim C3, counterexample.  On a platform whose `hardware_concurrency()`
reports 0, constructing with `thread_count = 0` stores effective thread count
0 — not a strictly positive fallback: the constructor has no fallback path. -/
theorem c3_counterexample :
    (construct 10 0 0)._threadCount = some 0 := by decide

/-- Claim C3, amended.  For `thread_count < 1` the effective thread count is
exactly the platform-reported hardware concurrency `hw` — including `hw = 0`,
in which case the pool has zero threads and a run can never make progress. -/
theorem c3_amended (maxWork tc : Int) (hw : Nat) (h : tc < 1) :
    (construct maxWork tc hw)._threadCount = some (hw : Int) := by
  simp [construct, h]

/-- Witness for `c3_amended` at `tc = 0`, `hw = 4`. -/
theorem c3_witness :
    (0 : Int) < 1 ∧ (construct 10 0 4)._threadCount = some ((4 : Nat) : Int) :=
  ⟨by decide, c3_amended 10 0 4 (by decide)⟩

/-- Claim C7 (the code refutes the serialization part; the spec states the
intended locking discipline).  `add_work` does increment `_maxWork` by exactly
one and does call `_cv.notify_one()`, but it acquires no lock: unlike
`get_work` and `get_work_wait`, which hold `_workMutex`, the `++_maxWork` in
`add_work` (scheduler.h lines 44–47) is an unsynchronized write racing with
the locked reads of `_maxWork` — it is not serialized through the claim
mutex. -/
theorem c7_add_work_not_serialized :
    acquires_workMutex Op.addWork = false
      ∧ acquires_workMutex Op.getWork = true
      ∧ acquires_workMutex Op.getWorkWait = true
      ∧ (add_work (construct 0 0 8))._maxWork = (construct 0 0 8)._maxWork + 1
      ∧ notifies Op.addWork = NotifyKind.notifyOne := by decide

/-- Claim C8, counterexample.  Constructing with the negative work count `-5`
is not reported as an error: the constructor has no validity check and no
failure path; it produces an ordinary state storing `_maxWork = -5`, on which
the first claim simply returns the sentinel. -/
theorem c8_counterexample :
    construct (-5) 0 8
        = { _maxWork := -5, _nextWork := 0, _done := false, _threadCount := some 8 }
      ∧ get_work (construct (-5) 0 8) = (-1, construct (-5) 0 8) := by decide

/-- Claim C8, amended.  A negative work count is accepted silently: construction
succeeds, stores the negative `_maxWork` unchanged, and every worker's first
`get_work` returns the sentinel `-1`, so the run processes zero indices. -/
theorem c8_amended (maxWork tc : Int) (hw : Nat) (h : maxWork < 0) :
    (construct maxWork tc hw)._maxWork = maxWork
      ∧ get_work (construct maxWork tc hw) = (-1, construct maxWork tc hw) := by
  refine ⟨rfl, get_work_ge ?_⟩
  show ¬ (0 : Int) < maxWork
  omega

/-- Witness for `c8_amended` at work count `-5`. -/
theorem c8_witness :
    (-5 : Int) < 0
      ∧ ((construct (-5) 0 8)._maxWork = -5
          ∧ get_work (construct (-5) 0 8) = (-1, construct (-5) 0 8)) :=
  ⟨by decide, c8_amended (-5) 0 8 (by decide)⟩

end scheduler

namespace scheduler

/-- Claim C5.  The streaming claim `get_work_wait`, on any state satisfying the
run invariant `0 ≤ _nextWork ≤ _maxWork`: (i) it blocks exactly when the wait
predicate `_done || (_nextWork < _maxWork)` is false — the guard re-checked on
every wake; (ii) when it returns, the result is the sentinel `-1` if and only
if `_done` is true and `_nextWork = _maxWork` (no index remains); (iii)
whenever `_nextWork < _maxWork` it returns the current `_nextWork` and
increments it. -/
theorem c5_get_work_wait_sentinel_iff (s : Sched)
    (h0 : 0 ≤ s._nextWork) (h1 : s._nextWork ≤ s._maxWork) :
    (get_work_wait s = none ↔ ¬ (s._done = true ∨ s._nextWork < s._maxWork))
      ∧ (∀ p : Int × Sched, get_work_wait s = some p →
          (p.1 = -1 ↔ (s._done = true ∧ s._nextWork = s._maxWork)))
      ∧ (s._nextWork < s._maxWork →
          get_work_wait s = some (s._nextWork, { s with _nextWork := s._nextWork + 1 })) := by
  refine ⟨?_, ?_, ?_⟩
  · by_cases hp : s._done = true ∨ s._nextWork < s._maxWork
    · simp [get_work_wait_of_pred hp, hp]
    · simp [get_work_wait_of_not_pred hp, hp]
  · intro p hp
    obtain ⟨rfl, hpred⟩ := get_work_wait_eq_some hp
    rcases get_work_cases s with ⟨hlt, heq⟩ | ⟨hge, heq⟩
    · rw [heq]
      constructor
      · intro hbad
        exact absurd hbad (by simp; omega)
      · rintro ⟨-, heqmax⟩
        omega
    · rw [heq]
      have hd : s._done = true := by
        rcases hpred with hd | hlt
        · exact hd
        · exact absurd hlt hge
      simp [hd]
      omega
  · intro hlt
    rw [get_work_wait_of_pred (Or.inr hlt), get_work_lt hlt]

/-- Witness for `c5_get_work_wait_sentinel_iff` on the state with
`_maxWork = 2`, `_nextWork = 0`, `_done = false`. -/
theorem c5_witness :
    (0 : Int) ≤ (construct 2 0 8)._nextWork
      ∧ (construct 2 0 8)._nextWork ≤ (construct 2 0 8)._maxWork
      ∧ ((get_work_wait (construct 2 0 8) = none
            ↔ ¬ ((construct 2 0 8)._done = true
                  ∨ (construct 2 0 8)._nextWork < (construct 2 0 8)._maxWork))
          ∧ (∀ p : Int × Sched, get_work_wait (construct 2 0 8) = some p →
              (p.1 = -1 ↔ ((construct 2 0 8)._done = true
                  ∧ (construct 2 0 8)._nextWork = (construct 2 0 8)._maxWork)))
          ∧ ((construct 2 0 8)._nextWork < (construct 2 0 8)._maxWork →
              get_work_wait (construct 2 0 8)
                = some ((construct 2 0 8)._nextWork,
                    { construct 2 0 8 with
                        _nextWork := (construct 2 0 8)._nextWork + 1 }))) :=
  ⟨by decide, by decide, c5_get_work_wait_sentinel_iff (construct 2 0 8) (by decide) (by decide)⟩

/-- Claim C10.  `run_all_threads` (hence both `run()` and `run_wait()`) resets
only `_nextWork` (and the thread handles), leaving `_done`, `_maxWork` and
`_threadCount` unchanged; `_done` is set to `false` only by the constructor,
set to `true` by `done_adding_work`, and preserved by `add_work`, `get_work`
and `get_work_wait`.  Consequently, once `done_adding_work` has run, every
subsequent streaming run on the same object starts with `_done = true`
already, and its workers never block in `get_work_wait`. -/
theorem c10_done_not_reset_by_run :
    (∀ s : Sched, (run_all_threads s)._done = s._done
        ∧ (run_all_threads s)._maxWork = s._maxWork
        ∧ (run_all_threads s)._threadCount = s._threadCount
        ∧ (run_all_threads s)._nextWork = 0)
      ∧ (∀ maxWork tc : Int, ∀ hw : Nat, (construct maxWork tc hw)._done = false)
      ∧ (∀ s : Sched, (done_adding_work s)._done = true)
      ∧ (∀ s : Sched, (add_work s)._done = s._done)
      ∧ (∀ s : Sched, ((get_work s).2)._done = s._done)
      ∧ (∀ s : Sched, ∀ p : Int × Sched, get_work_wait s = some p →
          p.2._done = s._done)
      ∧ (∀ s : Sched, s._done = true → get_work_wait s ≠ none) := by
  refine ⟨fun s => ⟨rfl, rfl, rfl, rfl⟩, fun _ _ _ => rfl, fun s => rfl,
    fun s => rfl, ?_, ?_, ?_⟩
  · intro s
    rcases get_work_cases s with ⟨-, heq⟩ | ⟨-, heq⟩ <;> rw [heq]
  · intro s p hp
    obtain ⟨rfl, -⟩ := get_work_wait_eq_some hp
    rcases get_work_cases s with ⟨-, heq⟩ | ⟨-, heq⟩ <;> rw [heq]
  · intro s hd
    rw [get_work_wait_of_pred (Or.inl hd)]
    exact Option.some_ne_none _

/-- Witness for `c10_done_not_reset_by_run`: after `done_adding_work`, a new
run (`run_all_threads`) starts with `_done` still `true`, and `get_work_wait`
does not block there. -/
theorem c10_witness :
    (run_all_threads (done_adding_work (construct 0 0 8)))._done = true
      ∧ get_work_wait (run_all_threads (done_adding_work (construct 0 0 8))) ≠ none :=
  ⟨by decide,
    c10_done_not_reset_by_run.2.2.2.2.2.2
      (run_all_threads (done_adding_work (construct 0 0 8))) (by decide)⟩

end scheduler

namespace scheduler

lemma execTrace_nil (s : Sched) : execTrace [] s = some ([], s) := rfl

lemma execTrace_cons_some_some {op : Op} {ops : List Op} {s s1 s2 : Sched}
    {v? : Option Int} {vs : List Int}
    (h1 : execOp op s = some (v?, s1)) (h2 : execTrace ops s1 = some (vs, s2)) :
    execTrace (op :: ops) s = some (v?.toList ++ vs, s2) := by
  simp [execTrace, h1, h2]

lemma execTrace_cons_inv {op : Op} {ops : List Op} {s s' : Sched} {outs : List Int}
    (h : execTrace (op :: ops) s = some (outs, s')) :
    ∃ (v? : Option Int) (s1 : Sched) (vs : List Int),
      execOp op s = some (v?, s1) ∧ execTrace ops s1 = some (vs, s')
        ∧ outs = v?.toList ++ vs := by
  cases hop : execOp op s with
  | none => simp [execTrace, hop] at h
  | some q =>
      obtain ⟨v?, s1⟩ := q
      cases htr : execTrace ops s1 with
      | none => simp [execTrace, hop, htr] at h
      | some r =>
          obtain ⟨vs, s2⟩ := r
          simp only [execTrace, hop, htr, Option.some.injEq, Prod.mk.injEq] at h
          obtain ⟨houts, rfl⟩ := h
          exact ⟨v?, s1, vs, rfl, htr, houts.symm⟩

lemma execTrace_append_some {l1 l2 : List Op} {s s1 s2 : Sched}
    {vs ws : List Int}
    (h1 : execTrace l1 s = some (vs, s1)) (h2 : execTrace l2 s1 = some (ws, s2)) :
    execTrace (l1 ++ l2) s = some (vs ++ ws, s2) := by
  induction l1 generalizing s vs with
  | nil =>
      simp only [execTrace, Option.some.injEq, Prod.mk.injEq] at h1
      obtain ⟨rfl, rfl⟩ := h1
      simpa using h2
  | cons op l1 ih =>
      obtain ⟨v?, sm, us, hop, htr, rfl⟩ := execTrace_cons_inv h1
      rw [List.cons_append, execTrace_cons_some_some hop (ih htr)]
      simp

end scheduler

namespace scheduler

/-- Case analysis of a completed serialized step: a producer step returns no
value and leaves `_nextWork` unchanged; a claim step either claims the current
`_nextWork` (when it is below `_maxWork`) and increments it, or returns the
sentinel and leaves the state unchanged. -/
lemma execOp_some_cases {op : Op} {s : Sched} {v? : Option Int} {s1 : Sched}
    (h : execOp op s = some (v?, s1)) :
    (v? = none ∧ s1._nextWork = s._nextWork)
      ∨ (s._nextWork < s._maxWork ∧ v? = some s._nextWork
          ∧ s1 = { s with _nextWork := s._nextWork + 1 })
      ∨ (v? = some (-1) ∧ s1 = s) := by
  cases op with
  | addWork =>
      simp only [execOp, Option.some.injEq, Prod.mk.injEq] at h
      obtain ⟨rfl, rfl⟩ := h
      exact Or.inl ⟨rfl, rfl⟩
  | doneAddingWork =>
      simp only [execOp, Option.some.injEq, Prod.mk.injEq] at h
      obtain ⟨rfl, rfl⟩ := h
      exact Or.inl ⟨rfl, rfl⟩
  | getWork =>
      simp only [execOp, Option.some.injEq, Prod.mk.injEq] at h
      obtain ⟨rfl, rfl⟩ := h
      rcases get_work_cases s with ⟨hlt, heq⟩ | ⟨hge, heq⟩
      · rw [heq]
        exact Or.inr (Or.inl ⟨hlt, rfl, rfl⟩)
      · rw [heq]
        exact Or.inr (Or.inr ⟨rfl, rfl⟩)
  | getWorkWait =>
      cases hW : get_work_wait s with
      | none => simp [execOp, hW] at h
      | some p =>
          simp only [execOp, hW, Option.map_some, Option.some.injEq,
            Prod.mk.injEq] at h
          obtain ⟨rfl, rfl⟩ := h
          obtain ⟨rfl, -⟩ := get_work_wait_eq_some hW
          rcases get_work_cases s with ⟨hlt, heq⟩ | ⟨hge, heq⟩
          · rw [heq]
            exact Or.inr (Or.inl ⟨hlt, rfl, rfl⟩)
          · rw [heq]
            exact Or.inr (Or.inr ⟨rfl, rfl⟩)

/-- No completed step decreases `_nextWork`. -/
lemma execOp_nextWork_mono {op : Op} {s : Sched} {v? : Option Int} {s1 : Sched}
    (h : execOp op s = some (v?, s1)) : s._nextWork ≤ s1._nextWork := by
  rcases execOp_some_cases h with ⟨-, he⟩ | ⟨-, -, rfl⟩ | ⟨-, rfl⟩
  · exact he.symm.le
  · simp
  · exact le_refl _

/-- Along any completed serialized trace, `_nextWork` is non-decreasing and
remains non-negative, every non-sentinel returned value `v` satisfies
`s._nextWork ≤ v < s'._nextWork`, and the non-sentinel returned values are
pairwise strictly increasing in lock order. -/
lemma execTrace_claims (ops : List Op) :
    ∀ (s : Sched) (outs : List Int) (s' : Sched), 0 ≤ s._nextWork →
      execTrace ops s = some (outs, s') →
      s._nextWork ≤ s'._nextWork
        ∧ 0 ≤ s'._nextWork
        ∧ (∀ v ∈ outs, v ≠ -1 → s._nextWork ≤ v ∧ v < s'._nextWork)
        ∧ List.Pairwise (fun a b : Int => a < b) (outs.filter (fun v => v ≠ -1)) := by
  induction ops with
  | nil =>
      intro s outs s' h0 h
      simp only [execTrace, Option.some.injEq, Prod.mk.injEq] at h
      obtain ⟨rfl, rfl⟩ := h
      simp [h0]
  | cons op ops ih =>
      intro s outs s' h0 h
      obtain ⟨v?, s1, vs, hop, htr, rfl⟩ := execTrace_cons_inv h
      rcases execOp_some_cases hop with ⟨rfl, he⟩ | ⟨hlt, rfl, rfl⟩ | ⟨rfl, rfl⟩
      · -- producer step: no output, `_nextWork` unchanged
        have h1 := ih s1 vs s' (he ▸ h0) htr
        rw [he] at h1
        simpa using h1
      · -- real claim of the current `_nextWork`
        have h01 : (0 : Int) ≤
            ({ s with _nextWork := s._nextWork + 1 } : Sched)._nextWork := by
          simp
          omega
        obtain ⟨hmono, hpos, hbound, hpair⟩ := ih _ vs s' h01 htr
        simp only at hmono hpos hbound
        have hsne : ¬ s._nextWork = -1 := by omega
        refine ⟨by omega, hpos, ?_, ?_⟩
        · intro v hv hvne
          rcases List.mem_cons.mp hv with rfl | hv'
          · exact ⟨le_refl _, by omega⟩
          · have := hbound v hv' hvne
            constructor <;> omega
        · rw [show (some s._nextWork).toList ++ vs = s._nextWork :: vs from rfl,
            List.filter_cons_of_pos (by simpa using hsne)]
          refine List.Pairwise.cons ?_ hpair
          intro b hb
          have hbne : b ≠ -1 := by simpa using List.of_mem_filter hb
          have := hbound b (List.mem_of_mem_filter hb) hbne
          omega
      · -- sentinel: no state change, output `-1` is filtered out
        obtain ⟨hmono, hpos, hbound, hpair⟩ := ih _ vs s' h0 htr
        refine ⟨hmono, hpos, ?_, ?_⟩
        · intro v hv hvne
          rcases List.mem_cons.mp hv with rfl | hv'
          · exact absurd rfl hvne
          · exact hbound v hv' hvne
        · rw [show (some (-1 : Int)).toList ++ vs = (-1 : Int) :: vs from rfl,
            List.filter_cons_of_neg (by simp)]
          exact hpair

end scheduler

namespace scheduler

/-- Claim C4.  Within a single run: across every completed serialized sequence
of operations (claims by `get_work` / `get_work_wait` interleaved with
producer steps, in `_workMutex` acquisition order), the non-sentinel values
returned by the claim operations are pairwise strictly increasing; and no
single completed operation ever decreases `_nextWork`, so `_nextWork` is
monotonically non-decreasing along the run. -/
theorem c4_claims_strictly_increasing :
    (∀ (op : Op) (s : Sched) (v? : Option Int) (s1 : Sched),
        execOp op s = some (v?, s1) → s._nextWork ≤ s1._nextWork)
      ∧ (∀ (ops : List Op) (s : Sched) (outs : List Int) (s' : Sched),
          0 ≤ s._nextWork → execTrace ops s = some (outs, s') →
          List.Pairwise (fun a b : Int => a < b)
              (outs.filter (fun v => v ≠ -1))
            ∧ s._nextWork ≤ s'._nextWork) := by
  refine ⟨fun op s v? s1 h => execOp_nextWork_mono h, ?_⟩
  intro ops s outs s' h0 h
  obtain ⟨hmono, -, -, hpair⟩ := execTrace_claims ops s outs s' h0 h
  exact ⟨hpair, hmono⟩

/-- Witness for `c4_claims_strictly_increasing`: the serialized run
`get_work, add_work, get_work_wait, get_work` from `_maxWork = 2` returns
`0, 1, 2` — strictly increasing — and ends with `_nextWork = 3 ≥ 0`. -/
theorem c4_witness :
    (0 : Int) ≤ (construct 2 0 8)._nextWork
      ∧ execTrace [Op.getWork, Op.addWork, Op.getWorkWait, Op.getWork]
            (construct 2 0 8)
          = some ([0, 1, 2],
              { _maxWork := 3, _nextWork := 3, _done := false,
                _threadCount := some 8 })
      ∧ (List.Pairwise (fun a b : Int => a < b)
            (([0, 1, 2] : List Int).filter (fun v => v ≠ -1))
          ∧ (construct 2 0 8)._nextWork
              ≤ ({ _maxWork := 3, _nextWork := 3, _done := false,
                    _threadCount := some 8 } : Sched)._nextWork) :=
  ⟨by decide, by decide,
    c4_claims_strictly_increasing.2
      [Op.getWork, Op.addWork, Op.getWorkWait, Op.getWork]
      (construct 2 0 8) [0, 1, 2]
      { _maxWork := 3, _nextWork := 3, _done := false, _threadCount := some 8 }
      (by decide) (by decide)⟩

end scheduler

namespace scheduler

lemma cons_map_range_succ (a : Int) (j : Nat) :
    a :: (List.range j).map (fun i : Nat => (a + 1) + (i : Int))
      = (List.range (j + 1)).map (fun i : Nat => a + (i : Int)) := by
  rw [List.range_succ_eq_map, List.map_cons, List.map_map]
  have efun : ((fun i : Nat => a + (i : Int)) ∘ Nat.succ)
      = (fun i : Nat => (a + 1) + (i : Int)) := by
    funext i
    simp only [Function.comp_apply]
    push_cast
    ring
  rw [efun]
  simp

lemma count_addWork_eq_zero {ops : List Op} (h : ops.filter isProducerOp = []) :
    ops.count Op.addWork = 0 := by
  rw [List.count_eq_zero]
  intro hmem
  have hm : Op.addWork ∈ ops.filter isProducerOp := List.mem_filter.mpr ⟨hmem, rfl⟩
  rw [h] at hm
  exact absurd hm (List.not_mem_nil _)

/-- Inversion of a completed `get_work_wait` step: either work was available
and the current `_nextWork` was claimed, or the wait predicate held through
`_done = true` with no work left and the sentinel was returned. -/
lemma execOp_getWorkWait_inv {s : Sched} {v? : Option Int} {s1 : Sched}
    (h : execOp Op.getWorkWait s = some (v?, s1)) :
    (s._nextWork < s._maxWork ∧ v? = some s._nextWork
        ∧ s1 = { s with _nextWork := s._nextWork + 1 })
      ∨ (s._done = true ∧ ¬ s._nextWork < s._maxWork ∧ v? = some (-1) ∧ s1 = s) := by
  cases hW : get_work_wait s with
  | none => simp [execOp, hW] at h
  | some p =>
      simp only [execOp, hW, Option.map_some, Option.some.injEq,
        Prod.mk.injEq] at h
      obtain ⟨rfl, rfl⟩ := h
      obtain ⟨rfl, hpred⟩ := get_work_wait_eq_some hW
      rcases get_work_cases s with ⟨hlt, heq⟩ | ⟨hge, heq⟩
      · rw [heq]
        exact Or.inl ⟨hlt, rfl, rfl⟩
      · rw [heq]
        refine Or.inr ⟨?_, hge, rfl, rfl⟩
        rcases hpred with hd | hlt
        · exact hd
        · exact absurd hlt hge

end scheduler

namespace scheduler

/-- The master lemma for streaming runs.  Consider any completed serialized
trace built from `get_work_wait` claims and producer calls, where the
producer calls form the sequence "`R` times `add_work`, then
`done_adding_work`" (or nothing at all if `_done` already holds).  Then:
`_maxWork` grows by exactly the number of `add_work` steps; the non-sentinel
claimed values are consecutive starting at the initial `_nextWork`; each
`get_work_wait` step yields exactly one value (a fresh index or a sentinel);
`_nextWork` stays within `[initial _nextWork, final _maxWork]`; and if any
sentinel was returned then the final state is drained
(`_nextWork = _maxWork`). -/
lemma streaming_trace_spec (ops : List Op) :
    ∀ (R : Nat) (s : Sched) (outs : List Int) (s' : Sched),
      (∀ o ∈ ops, o ≠ Op.getWork) →
      0 ≤ s._nextWork → s._nextWork ≤ s._maxWork →
      (s._done = false → ops.filter isProducerOp
          = List.replicate R Op.addWork ++ [Op.doneAddingWork]) →
      (s._done = true → ops.filter isProducerOp = []) →
      execTrace ops s = some (outs, s') →
      s'._maxWork = s._maxWork + (ops.count Op.addWork : Int)
        ∧ outs.filter (fun v => v ≠ -1)
            = (List.range (s'._nextWork - s._nextWork).toNat).map
                (fun i : Nat => s._nextWork + (i : Int))
        ∧ (s'._nextWork - s._nextWork).toNat + outs.count (-1)
            = ops.count Op.getWorkWait
        ∧ s._nextWork ≤ s'._nextWork ∧ s'._nextWork ≤ s'._maxWork
        ∧ (0 < outs.count (-1) → s'._nextWork = s'._maxWork) := by
  induction ops with
  | nil =>
      intro R s outs s' hng h0 h1 hdF hdT h
      simp only [execTrace, Option.some.injEq, Prod.mk.injEq] at h
      obtain ⟨rfl, rfl⟩ := h
      simp [h1]
  | cons op ops ih =>
      intro R s outs s' hng h0 h1 hdF hdT h
      obtain ⟨v?, s1, vs, hop, htr, rfl⟩ := execTrace_cons_inv h
      have hng' : ∀ o ∈ ops, o ≠ Op.getWork :=
        fun o ho => hng o (List.mem_cons_of_mem _ ho)
      cases op with
      | getWork => exact absurd rfl (hng _ (List.mem_cons_self _ _))
      | addWork =>
          -- the step: `_maxWork` grows by one, nothing else changes
          simp only [execOp, Option.some.injEq, Prod.mk.injEq] at hop
          obtain ⟨rfl, rfl⟩ := hop
          cases hdone : s._done with
          | true =>
              have hbad := hdT hdone
              simp [isProducerOp] at hbad
          | false =>
              have hrep := hdF hdone
              rw [List.filter_cons_of_pos rfl] at hrep
              cases R with
              | zero => simp at hrep
              | succ R0 =>
                  rw [List.replicate_succ, List.cons_append,
                    List.cons.injEq] at hrep
                  have hfil : ops.filter isProducerOp
                      = List.replicate R0 Op.addWork ++ [Op.doneAddingWork] :=
                    hrep.2
                  have hIH := ih R0 (add_work s) vs s' hng' h0 (by
                      show s._nextWork ≤ s._maxWork + 1
                      omega)
                    (fun _ => hfil)
                    (fun hT => by
                      rw [show (add_work s)._done = s._done from rfl, hdone] at hT
                      exact absurd hT (by simp)) htr
                  obtain ⟨hmax, hfilter, hcount, hlo, hhi, hdrain⟩ := hIH
                  refine ⟨?_, ?_, ?_, ?_, ?_, ?_⟩
                  · rw [hmax, List.count_cons_self]
                    show s._maxWork + 1 + ((ops.count Op.addWork : Nat) : Int)
                        = s._maxWork + ((ops.count Op.addWork + 1 : Nat) : Int)
                    push_cast
                    ring
                  · simpa using hfilter
                  · rw [show ((Op.addWork :: ops).count Op.getWorkWait)
                        = ops.count Op.getWorkWait from by
                      rw [List.count_cons_of_ne]
                      decide]
                    simpa using hcount
                  · exact hlo
                  · exact hhi
                  · simpa using hdrain
      | doneAddingWork =>
          simp only [execOp, Option.some.injEq, Prod.mk.injEq] at hop
          obtain ⟨rfl, rfl⟩ := hop
          cases hdone : s._done with
          | true =>
              have hbad := hdT hdone
              simp [isProducerOp] at hbad
          | false =>
              have hrep := hdF hdone
              rw [List.filter_cons_of_pos rfl] at hrep
              cases R with
              | succ R0 =>
                  rw [List.replicate_succ, List.cons_append,
                    List.cons.injEq] at hrep
                  exact absurd hrep.1 (by decide)
              | zero =>
                  simp only [List.replicate, List.nil_append,
                    List.cons.injEq] at hrep
                  have hfil : ops.filter isProducerOp = [] := hrep.2
                  have hIH := ih 0 (done_adding_work s) vs s' hng' h0 h1
                    (fun hF => by
                      rw [show (done_adding_work s)._done = true from rfl] at hF
                      exact absurd hF (by simp))
                    (fun _ => hfil) htr
                  obtain ⟨hmax, hfilter, hcount, hlo, hhi, hdrain⟩ := hIH
                  have hz := count_addWork_eq_zero hfil
                  refine ⟨?_, ?_, ?_, ?_, ?_, ?_⟩
                  · rw [hmax, hz]
                    rw [show ((Op.doneAddingWork :: ops).count Op.addWork)
                        = ops.count Op.addWork from by
                      rw [List.count_cons_of_ne]
                      decide]
                    rw [hz]
                    rfl
                  · simpa using hfilter
                  · rw [show ((Op.doneAddingWork :: ops).count Op.getWorkWait)
                        = ops.count Op.getWorkWait from by
                      rw [List.count_cons_of_ne]
                      decide]
                    simpa using hcount
                  · exact hlo
                  · exact hhi
                  · simpa using hdrain
      | getWorkWait =>
          have hfilcons : (Op.getWorkWait :: ops).filter isProducerOp
              = ops.filter isProducerOp := List.filter_cons_of_neg (by decide)
          rcases execOp_getWorkWait_inv hop with ⟨hlt, rfl, rfl⟩ | ⟨hdone, hge, rfl, hs1⟩
          · -- a fresh index was claimed
            have hIH := ih R ({ s with _nextWork := s._nextWork + 1 }) vs s' hng'
              (by show (0:Int) ≤ s._nextWork + 1; omega)
              (by show s._nextWork + 1 ≤ s._maxWork; omega)
              (fun hF => by rw [hfilcons] at hdF; exact hdF hF)
              (fun hT => by rw [hfilcons] at hdT; exact hdT hT) htr
            obtain ⟨hmax, hfilter, hcount, hlo, hhi, hdrain⟩ := hIH
            simp only at hmax hfilter hcount hlo hhi hdrain
            have hvne : ¬ s._nextWork = -1 := by omega
            have hj : (s'._nextWork - s._nextWork).toNat
                = (s'._nextWork - (s._nextWork + 1)).toNat + 1 := by omega
            refine ⟨?_, ?_, ?_, by omega, hhi, ?_⟩
            · rw [hmax]
              rw [show ((Op.getWorkWait :: ops).count Op.addWork)
                  = ops.count Op.addWork from by
                rw [List.count_cons_of_ne]
                decide]
            · rw [show (some s._nextWork).toList ++ vs = s._nextWork :: vs from rfl,
                List.filter_cons_of_pos (by simpa using hvne), hfilter, hj,
                cons_map_range_succ]
            · rw [show (some s._nextWork).toList ++ vs = s._nextWork :: vs from rfl,
                List.count_cons_of_ne (by omega), hj,
                List.count_cons_self]
              omega
            · intro hpos
              apply hdrain
              rw [show (some s._nextWork).toList ++ vs = s._nextWork :: vs from rfl,
                List.count_cons_of_ne (by omega)] at hpos
              exact hpos
          · -- sentinel: `_done` held and no work remained
            rw [hs1] at htr
            have hnm : s._nextWork = s._maxWork := by omega
            have hfil : ops.filter isProducerOp = [] := by
              rw [hfilcons] at hdT
              exact hdT hdone
            have hIH := ih R s vs s' hng' h0 h1
              (fun hF => absurd hdone (by rw [hF]; simp))
              (fun _ => hfil) htr
            obtain ⟨hmax, hfilter, hcount, hlo, hhi, hdrain⟩ := hIH
            have hz := count_addWork_eq_zero hfil
            have hmax' : s'._maxWork = s._maxWork := by
              rw [hmax, hz]
              push_cast
              ring
            have hnext : s'._nextWork = s._nextWork := by omega
            refine ⟨?_, ?_, ?_, hlo, hhi, ?_⟩
            · rw [hmax', show ((Op.getWorkWait :: ops).count Op.addWork)
                  = ops.count Op.addWork from by
                rw [List.count_cons_of_ne]
                decide, hz]
              push_cast
              ring
            · rw [show (some (-1 : Int)).toList ++ vs = (-1 : Int) :: vs from rfl,
                List.filter_cons_of_neg (by simp)]
              exact hfilter
            · rw [show (some (-1 : Int)).toList ++ vs = (-1 : Int) :: vs from rfl,
                List.count_cons_self, List.count_cons_self]
              omega
            · intro _
              omega

end scheduler

namespace scheduler

lemma get_work_done_preserved (s : Sched) : ((get_work s).2)._done = s._done := by
  rcases get_work_cases s with ⟨-, heq⟩ | ⟨-, heq⟩ <;> rw [heq]

/-- A block of `n` consecutive `add_work` calls returns nothing and grows
`_maxWork` by `n`. -/
lemma execTrace_replicate_addWork (n : Nat) : ∀ s : Sched,
    execTrace (List.replicate n Op.addWork) s
      = some ([], { s with _maxWork := s._maxWork + (n : Int) }) := by
  induction n with
  | zero =>
      intro s
      simp [execTrace]
  | succ n ih =>
      intro s
      rw [List.replicate_succ,
        execTrace_cons_some_some (rfl :
          execOp Op.addWork s = some (none, add_work s)) (ih (add_work s))]
      simp only [Option.toList, List.nil_append, Option.some.injEq,
        Prod.mk.injEq, Sched.mk.injEq, add_work]
      refine ⟨trivial, ⟨?_, trivial, trivial, trivial⟩⟩
      push_cast
      ring

/-- Once `_done` is true, `get_work_wait` never blocks and behaves exactly
like `get_work`, so a block of `m` `get_work_wait` calls completes and
produces the `get_work` trace. -/
lemma execTrace_replicate_getWorkWait (m : Nat) : ∀ s : Sched, s._done = true →
    execTrace (List.replicate m Op.getWorkWait) s = some (getWorkTrace m s) := by
  induction m with
  | zero =>
      intro s hd
      simp [execTrace, getWorkTrace]
  | succ m ih =>
      intro s hd
      have hop : execOp Op.getWorkWait s
          = some (some (get_work s).1, (get_work s).2) := by
        simp [execOp, get_work_wait_of_pred (Or.inl hd)]
      have hd2 : ((get_work s).2)._done = true := by
        rw [get_work_done_preserved]
        exact hd
      rw [List.replicate_succ,
        execTrace_cons_some_some hop (ih ((get_work s).2) hd2)]
      simp [getWorkTrace]

end scheduler

namespace scheduler

/-- Behaviour of a streaming run over the serialized (lock-order) semantics,
in which every operation — including the producer's `add_work` and
`done_adding_work` — completes as one atomic step and every blocked
`get_work_wait` re-examines its predicate whenever it is scheduled.  On a
scheduler constructed with work count 0, with a producer performing
`add_work()` exactly `K` times and then `done_adding_work()`, and `k ≥ 1`
workers looping on `get_work_wait`: the canonical schedule (producer first,
then the workers drain) completes with outputs `0, …, K-1` followed by one
sentinel per worker; and every completed serialized interleaving of that
producer sequence with `K + k` `get_work_wait` calls returns the
non-sentinel values `0, …, K-1` (each exactly once, in order) and exactly
`k` sentinels.  Note this lemma speaks only about serialized traces: it does
not establish that the real program's blocked waiters are ever woken (see
`c6_close_notify_not_serialized` for the wakeup defect in the source). -/
theorem streaming_run_serialized (K k : Nat) (hk : 1 ≤ k) (tc : Int) (hw : Nat) :
    execTrace (List.replicate K Op.addWork
          ++ Op.doneAddingWork :: List.replicate (K + k) Op.getWorkWait)
        (run_all_threads (construct 0 tc hw))
      = some ((List.range K).map (fun i : Nat => (i : Int)) ++ List.replicate k (-1),
              { _maxWork := (K : Int), _nextWork := (K : Int), _done := true,
                _threadCount := if tc < 1 then some (hw : Int) else none })
    ∧ (∀ (ops : List Op) (outs : List Int) (s' : Sched),
        (∀ o ∈ ops, o ≠ Op.getWork) →
        ops.filter isProducerOp
            = List.replicate K Op.addWork ++ [Op.doneAddingWork] →
        ops.count Op.getWorkWait = K + k →
        execTrace ops (run_all_threads (construct 0 tc hw)) = some (outs, s') →
        outs.filter (fun v => v ≠ -1) = (List.range K).map (fun i : Nat => (i : Int))
          ∧ outs.count (-1) = k) := by
  constructor
  · -- canonical schedule: the producer finishes, then the workers drain
    have hs0 : run_all_threads (construct 0 tc hw)
        = { _maxWork := 0, _nextWork := 0, _done := false,
            _threadCount := if tc < 1 then some (hw : Int) else none } := rfl
    rw [hs0]
    set T : Option Int := if tc < 1 then some (hw : Int) else none with hT
    have h1 := execTrace_replicate_addWork K
      ({ _maxWork := 0, _nextWork := 0, _done := false, _threadCount := T })
    have hop : execOp Op.doneAddingWork
          ({ _maxWork := 0 + (K : Int), _nextWork := 0, _done := false,
             _threadCount := T })
        = some (none,
            ({ _maxWork := 0 + (K : Int), _nextWork := 0, _done := true,
               _threadCount := T })) := rfl
    have h3 := execTrace_replicate_getWorkWait (K + k)
      ({ _maxWork := 0 + (K : Int), _nextWork := 0, _done := true,
         _threadCount := T }) rfl
    have hspec := getWorkTrace_spec (K + k)
      ({ _maxWork := 0 + (K : Int), _nextWork := 0, _done := true,
         _threadCount := T })
      (by show (0 : Int) ≤ 0 + (K : Int); omega)
    have hp1 : ({ _maxWork := 0 + (K : Int), _nextWork := 0, _done := true,
                  _threadCount := T } : Sched)._nextWork = 0 := rfl
    have hp2 : ({ _maxWork := 0 + (K : Int), _nextWork := 0, _done := true,
                  _threadCount := T } : Sched)._maxWork = (K : Int) := by
      show (0 : Int) + (K : Int) = (K : Int)
      ring
    rw [hp1, hp2] at hspec
    have e1 : ((K : Int) - 0).toNat = K := by omega
    have e2 : min (K + k) K = K := by omega
    have e3 : (K + k) - K = k := by omega
    have hfun0 : (fun i : Nat => (0 : Int) + (i : Int)) = (fun i : Nat => (i : Int)) := by
      funext i
      ring
    rw [hfun0] at hspec
    rw [e1, e2, e3] at hspec
    rw [hspec] at h3
    rw [execTrace_append_some h1 (execTrace_cons_some_some hop h3)]
    simp only [List.nil_append, Option.toList]
    rw [show (0 : Int) + (K : Int) = (K : Int) from by ring]
  · -- every completed interleaving claims 0, …, K-1 and k sentinels
    intro ops outs s' hng hfil hcw htr
    have h0 : (0 : Int) ≤ (run_all_threads (construct 0 tc hw))._nextWork := le_refl 0
    have h1 : (run_all_threads (construct 0 tc hw))._nextWork
        ≤ (run_all_threads (construct 0 tc hw))._maxWork := le_refl 0
    have hspec := streaming_trace_spec ops K (run_all_threads (construct 0 tc hw))
      outs s' hng h0 h1 (fun _ => hfil) (fun hT => nomatch hT) htr
    obtain ⟨hmax, hfilter, hcount, hlo, hhi, hdrain⟩ := hspec
    have hca : ops.count Op.addWork = K := by
      have h2 : (ops.filter isProducerOp).count Op.addWork = ops.count Op.addWork :=
        List.count_filter rfl
      rw [hfil, List.count_append, List.count_replicate_self,
        show (List.count Op.addWork [Op.doneAddingWork]) = 0 from by decide] at h2
      omega
    have hmax' : s'._maxWork = (K : Int) := by
      rw [hmax, hca]
      show (0 : Int) + (K : Int) = (K : Int)
      ring
    have hlo' : (0 : Int) ≤ s'._nextWork := hlo
    have hcount' : (s'._nextWork - 0).toNat + outs.count (-1) = K + k := by
      rw [hcw] at hcount
      exact hcount
    have hhi' : s'._nextWork ≤ (K : Int) := by
      rw [← hmax']
      exact hhi
    have hkey : s'._nextWork = (K : Int) ∧ outs.count (-1) = k := by
      by_cases hc : outs.count (-1) = 0
      · exfalso
        rw [hc] at hcount'
        omega
      · have hd := hdrain (Nat.pos_of_ne_zero hc)
        rw [hmax'] at hd
        refine ⟨hd, ?_⟩
        rw [hd] at hcount'
        omega
    obtain ⟨hnK, hck⟩ := hkey
    refine ⟨?_, hck⟩
    have e : (s'._nextWork - (run_all_threads (construct 0 tc hw))._nextWork).toNat
        = K := by
      rw [hnK]
      show ((K : Int) - 0).toNat = K
      omega
    rw [hfilter, e]
    have hfun : (fun i : Nat =>
          (run_all_threads (construct 0 tc hw))._nextWork + (i : Int))
        = (fun i : Nat => (i : Int)) := by
      funext i
      show (0 : Int) + (i : Int) = (i : Int)
      ring
    rw [hfun]

end scheduler

namespace scheduler

/-- Concrete instance of `streaming_run_serialized`: `K = 2` added items,
`k = 1` worker. -/
theorem streaming_run_serialized_example :
    1 ≤ 1
      ∧ (execTrace (List.replicate 2 Op.addWork
              ++ Op.doneAddingWork :: List.replicate (2 + 1) Op.getWorkWait)
            (run_all_threads (construct 0 0 8))
          = some ((List.range 2).map (fun i : Nat => (i : Int)) ++ List.replicate 1 (-1),
                  { _maxWork := ((2 : Nat) : Int), _nextWork := ((2 : Nat) : Int),
                    _done := true,
                    _threadCount := if (0 : Int) < 1 then some ((8 : Nat) : Int) else none })
          ∧ (∀ (ops : List Op) (outs : List Int) (s' : Sched),
              (∀ o ∈ ops, o ≠ Op.getWork) →
              ops.filter isProducerOp
                  = List.replicate 2 Op.addWork ++ [Op.doneAddingWork] →
              ops.count Op.getWorkWait = 2 + 1 →
              execTrace ops (run_all_threads (construct 0 0 8)) = some (outs, s') →
              outs.filter (fun v => v ≠ -1)
                  = (List.range 2).map (fun i : Nat => (i : Int))
                ∧ outs.count (-1) = 1)) :=
  ⟨by decide, streaming_run_serialized 2 1 (by decide) 0 8⟩

/-- Claim C6 (the code refutes the termination guarantee; the spec — and the
repository's own `scheduler_wait_test` in `test_scheduler3.cpp`, which
expects `join()` to return — state the intent).  The claim requires every
worker loop to reach the sentinel and `join()` to return.  But the closing
call `done_adding_work` (scheduler.h lines 49–52) sets `_done` and issues
its `_cv.notify_all()` WITHOUT holding `_workMutex`, while `get_work_wait`
(lines 131–144) evaluates its wait predicate under that mutex: the
notification is not serialized with the predicate check.  If the close fires
in the window after a worker has evaluated the predicate (seeing `_done`
still false and no work) and before that worker atomically
releases-and-blocks, the notification is lost; no later notification ever
arrives, the worker sleeps forever and `join()` hangs — already for `K = 0`.
(The unsynchronized writes to `_done` and `_maxWork` are, in addition, C++
data races.)  This theorem records the defect as read off the source: the
close runs outside the claim mutex while the waiters wait inside it, even
though the close does reach the shared flag (`_done` becomes `true`, after
which any claim that is re-examined drains correctly — that much is
`streaming_run_serialized`). -/
theorem c6_close_notify_not_serialized :
    acquires_workMutex Op.doneAddingWork = false
      ∧ notifies Op.doneAddingWork = NotifyKind.notifyAll
      ∧ acquires_workMutex Op.getWorkWait = true
      ∧ (done_adding_work (run_all_threads (construct 0 0 8)))._done = true := by
  decide

end scheduler
